import Mathlib

/-!
# Verification of the MCcubed plotting module

Shallow embedding of `MCcubed/plots/mcplots.py` (functions `trace`,
`pairwise`, `histogram`, `RMS`, `modelfit`) and proofs about its
documented behaviour.

Modelling conventions:
* numpy arrays are Lean lists (`List ℚ` for float arrays, `List ℕ` for the
  integer chain-index array, `List (List ℚ)` for the row-major 2-D
  posterior matrix);
* numpy operations used by the source are given executable definitions with
  the same semantics (`applyMask` for boolean-mask indexing, `takeIdx` for
  fancy indexing, `thin` for the slice `[0::t]`, `linspace`, `amax`, ...);
* external collaborators that the source merely calls
  (`mu.credregion`, `np.histogram2d`) are universally quantified function
  parameters: the claims proved here hold for every collaborator;
* the code was written for Python 2, so `/` between ints is floor division
  (`Nat.div` here);
* plotting-library calls carry no data back into the program; a renderer is
  modelled by the data it hands to the plotting layer.
-/

namespace MCplots

/-- numpy boolean-mask indexing `l[m]`: the elements of `l` at positions
where the mask is `true`. -/
def applyMask {α : Type} (l : List α) (m : List Bool) : List α :=
  (l.zip m).filterMap (fun p => if p.2 then some p.1 else none)

/-- numpy fancy indexing `l[idx]`: the elements of `l` at the given indices
(in the order given). -/
def takeIdx {α : Type} (l : List α) (idx : List ℕ) : List α :=
  idx.filterMap (fun i => l[i]?)

/-- Python slice `l[0::t]`: the elements at indices that are multiples of
`t` (the source always uses a stride `t ≥ 1`). -/
def thin {α : Type} (l : List α) (t : ℕ) : List α :=
  takeIdx l ((List.range l.length).filter (fun i => i % t == 0))

/-- Column `i` of a row-major matrix: `posterior[:, i]`. -/
def col (P : List (List ℚ)) (i : ℕ) : List ℚ :=
  P.map (fun r => r.getD i 0)

/-- `np.amax` of an integer array (`0` on the empty array, where numpy
raises). -/
def amaxN (l : List ℕ) : ℕ := l.foldr max 0

/-- `np.amax` of a float array (`0` on the empty array, where numpy
raises). -/
def amax : List ℚ → ℚ
  | [] => 0
  | a :: t => t.foldl max a

/-- `np.amin` of a float array (`0` on the empty array, where numpy
raises). -/
def amin : List ℚ → ℚ
  | [] => 0
  | a :: t => t.foldl min a

/-- `np.amax` of a 2-D integer array. -/
def amax2 (h : List (List ℕ)) : ℕ := amaxN (h.map amaxN)

/-- `np.linspace start stop num`: `num` evenly spaced points from `start`
to `stop`, endpoints included (for `num ≥ 2`). -/
def linspace (start stop : ℚ) (num : ℕ) : List ℚ :=
  if num = 0 then []
  else if num = 1 then [start]
  else (List.range num).map
    (fun i : ℕ => start + (stop - start) * (i : ℚ) / ((num : ℚ) - 1))

/-! ## `trace` (mcplots.py lines 18-100)

The part of `trace` the claims are about is the pure data preparation of
lines 47-61: the burn-in mask, the stable re-sort by chain index, and the
chain-separator positions. -/

/-- `nchains = np.amax(Zchain) + 1` (line 49). -/
def nchains (Z : List ℕ) : ℕ := amaxN Z + 1

/-- `np.where(Z == c)[0]`: the (increasing) list of indices at which `Z`
equals `c`. -/
def idxWhere (Z : List ℕ) (c : ℕ) : List ℕ :=
  (List.range Z.length).filter (fun i => Z.getD i 0 == c)

/-- The `good` mask of lines 50-52: `good = np.zeros(len(Zchain), bool)`,
then `good[np.where(Zchain == c)[0][burnin:]] = True` for every chain `c`
in `range(nchains)`.  Position `i` ends up `true` iff some iteration of the
loop sets it. -/
def goodMask (Z : List ℕ) (burnin : ℕ) : List Bool :=
  (List.range Z.length).map (fun i =>
    decide (∃ c ∈ List.range (nchains Z), i ∈ (idxWhere Z c).drop burnin))

/-- `np.lexsort([Z])` (line 57): the stable argsort of `Z` — indices that
sort `Z`, ties kept in original order — realized as a stable merge sort of
the index range compared by key. -/
def lexsortIdx (Z : List ℕ) : List ℕ :=
  (List.range Z.length).mergeSort (fun i j => decide (Z.getD i 0 ≤ Z.getD j 0))

/-- Lines 48-59 of `trace`: the posterior rows and chain indices after the
burn-in mask (`posterior[good]`, `Zchain[good]`) and the stable sort by
chain (`posterior[zsort]`, `Zchain[zsort]`). -/
def tracePrep (P : List (List ℚ)) (Z : List ℕ) (burnin : ℕ) :
    List (List ℚ) × List ℕ :=
  let good := goodMask Z burnin
  let P1 := applyMask P good
  let Z1 := applyMask Z good
  let zsort := lexsortIdx Z1
  (takeIdx P1 zsort, takeIdx Z1 zsort)

/-- The claim's description of the same preparation: for each chain id in
increasing order, that chain's samples in their original order with the
first `burnin` discarded. -/
def tracePrepSpec (P : List (List ℚ)) (Z : List ℕ) (burnin : ℕ) :
    List (List ℚ) × List ℕ :=
  let rows := Z.zip P
  let sorted := (List.range (nchains Z)).flatMap
    (fun c => (rows.filter (fun r => r.1 == c)).drop burnin)
  (sorted.map Prod.snd, sorted.map Prod.fst)

/-- Line 61: `xsep = np.where(np.ediff1d(Zchain[0::thinning]))[0]` — the
positions at which the thinned, sorted chain-index sequence has a nonzero
forward difference. -/
def traceXsep (P : List (List ℚ)) (Z : List ℕ) (burnin thinning : ℕ) :
    List ℕ :=
  let zt := thin (tracePrep P Z burnin).2 thinning
  (List.range (zt.length - 1)).filter
    (fun k => decide (((zt.getD (k+1) 0 : ℤ) - (zt.getD k 0 : ℤ)) ≠ 0))

/-- Line 85: the sample sequence plotted for parameter `i` is
`posterior[0::thinning, i]` of the prepared posterior. -/
def tracePlotted (P : List (List ℚ)) (Z : List ℕ) (burnin thinning i : ℕ) :
    List ℚ :=
  col (thin (tracePrep P Z burnin).1 thinning) i

/-! ## `pairwise` (mcplots.py lines 103-214) -/

/-- The parameter pairs `(i, j)` visited by the double loop of lines
154-156 / 175-177, in visiting order: `j` in `np.arange(1, npars)` (rows),
`i` in `np.arange(npars-1)` (columns), restricted to `j > i`.  One filled
contour panel is drawn per pair. -/
def pairIdx (npars : ℕ) : List (ℕ × ℕ) :=
  (List.range' 1 (npars - 1)).flatMap (fun j =>
    ((List.range (npars - 1)).filter (fun i => decide (i < j))).map (fun i => (i, j)))

/-- One contour panel of `pairwise`: the parameter pair, the 2-D histogram
handed to `contourf` (the source plots its transpose, which has the same
maximum bin count), and the `levels` list passed to `contourf`
(line 193). -/
structure PairPanel where
  pidx : ℕ × ℕ
  hist : List (List ℕ)
  levels : List ℚ

instance : Inhabited PairPanel := ⟨⟨(0, 0), [], []⟩⟩

/-- The single panel produced by a concrete two-parameter `pairwise` run
whose 2-D histogram is `[[3]]` (used as a concrete evaluation point). -/
def pairPanelExample : PairPanel :=
  { pidx := (0, 1), hist := [[3]], levels := 0 :: linspace 1 ((4 : ℕ) : ℚ) 2 }

/-- The `pairwise` renderer (data part).  `hist2d` stands for the external
`np.histogram2d` collaborator: given the two thinned sample columns and the
bin count it returns the bin-count matrix and the two edge arrays.
Returns `none` when `npars == 1` (line 135-136: the function returns
without touching any figure); otherwise the panels in drawing order:
per-panel `lmax` is `np.amax(h) + 1` (line 162), replaced by
`npars*(npars+1)*2` copies of the global maximum when `absolute_dens`
(line 165), and the contour levels are `[0] + list(np.linspace(1, lmax[k],
nlevels))` (line 193). -/
def pairwiseRun (posterior : List (List ℚ)) (thinning nbins nlevels : ℕ)
    (absolute_dens : Bool)
    (hist2d : List ℚ → List ℚ → ℕ → List (List ℕ) × List ℚ × List ℚ) :
    Option (List PairPanel) :=
  let npars := (posterior.headD []).length
  if npars = 1 then none
  else
    let pairs := pairIdx npars
    let hists := pairs.map (fun ij =>
      (hist2d (col (thin posterior thinning) ij.1)
              (col (thin posterior thinning) ij.2) nbins).1)
    let lmax0 := hists.map (fun h => amax2 h + 1)
    let lmax := if absolute_dens then
        List.replicate (npars * (npars + 1) * 2) (amaxN lmax0)
      else lmax0
    some ((List.range pairs.length).map (fun k =>
      { pidx := pairs.getD k (0, 0)
        hist := hists.getD k []
        levels := 0 :: linspace 1 (lmax.getD k 0) nlevels }))

/-! ## `histogram` (mcplots.py lines 217-323) -/

/-- Number of subplot rows (lines 274-277, Python 2 integer division). -/
def histNrows (npars : ℕ) : ℕ :=
  if npars < 10 then (npars - 1) / 3 + 1 else (npars - 1) / 4 + 1

/-- Number of subplot columns (lines 279-284, Python 2 integer division;
the `npars ≤ 4` branch is the source's `(npars+2)/3 + (npars+2)%3`). -/
def histNcols (npars : ℕ) : ℕ :=
  if 9 < npars then 4
  else if 4 < npars then 3
  else (npars + 2) / 3 + (npars + 2) % 3

/-- One marginal-histogram panel: the samples handed to `plt.hist`, its
`bins` argument, the column handed to `mu.credregion` (when `percentile`
is given), and the `fill_between` shading data: the `x` grid (`Xpdf`) and
the boolean `where` mask (`PDF >= HPDmin`) of line 312. -/
structure HistPanel where
  histData : List ℚ
  nbins : ℕ
  credColumn : Option (List ℚ)
  shadeX : List ℚ
  shadeMask : List Bool

instance : Inhabited HistPanel := ⟨⟨[], 0, none, [], []⟩⟩

/-- The grid layout and panels of the `histogram` renderer. -/
structure HistogramModel where
  nrows : ℕ
  ncolumns : ℕ
  panels : List HistPanel

/-- The `histogram` renderer (data part), for a 2-D posterior.  `cred`
stands for the external `mu.credregion` collaborator: given the parameter
index (standing for the per-parameter `pdf[i]`, `xpdf[i]` arguments), the
posterior column, and the percentile, it returns `(PDF, Xpdf, HPDmin)`.
Per parameter `i` (lines 293-313): `plt.hist` receives
`posterior[0::thinning, i]` with `bins=25`; when `percentile` is given,
`mu.credregion` receives the full column `posterior[:, i]` and
`fill_between` shades over `Xpdf` with `where = PDF >= HPDmin`. -/
def histogramRun (posterior : List (List ℚ)) (thinning : ℕ)
    (percentile : Option ℚ)
    (cred : ℕ → List ℚ → ℚ → List ℚ × List ℚ × ℚ) : HistogramModel :=
  let npars := (posterior.headD []).length
  { nrows := histNrows npars
    ncolumns := histNcols npars
    panels := (List.range npars).map (fun i =>
      let data := col (thin posterior thinning) i
      match percentile with
      | none =>
        { histData := data, nbins := 25, credColumn := none,
          shadeX := [], shadeMask := [] }
      | some p =>
        let r := cred i (col posterior i) p
        { histData := data, nbins := 25,
          credColumn := some (col posterior i),
          shadeX := r.2.1,
          shadeMask := r.1.map (fun q => decide (r.2.2 ≤ q)) }) }

/-- The grid points actually shaded by the `fill_between` call of line 312:
the points of the `x` grid at which the `where` mask is true. -/
def shadedPoints (p : HistPanel) : List ℚ :=
  applyMask p.shadeX p.shadeMask

/-! ## `RMS` (mcplots.py lines 326-418) -/

/-- Elementwise `a - b` on equally long arrays. -/
def ewSub (a b : List ℚ) : List ℚ := (a.zip b).map (fun p => p.1 - p.2)

/-- Elementwise `a + b` on equally long arrays. -/
def ewAdd (a b : List ℚ) : List ℚ := (a.zip b).map (fun p => p.1 + p.2)

/-- Elementwise `a / b` on equally long arrays. -/
def ewDiv (a b : List ℚ) : List ℚ := (a.zip b).map (fun p => p.1 / p.2)

/-- The axis ranges the `RMS` renderer applies. -/
structure RMSResult where
  yran : ℚ × ℚ
  xran : ℚ × ℚ

/-- The `RMS` renderer (data part).  Returns `none` — no figure is created,
cleared or saved — when `np.size(rms) <= 1` (lines 362-363, the guard runs
before `plt.figure`).  Otherwise the applied ranges: lines 366-380 and the
final `plt.ylim(yran)` / `plt.xlim(xran)` of lines 412-413. -/
def RMSrun (binsz rms stderr rmslo rmshi : List ℚ) (cadence : Option ℚ)
    (ratio : Bool) (yran0 xran0 : Option (ℚ × ℚ)) : Option RMSResult :=
  if rms.length ≤ 1 then none
  else
    let cad := cadence.getD 1
    let yran :=
      match yran0 with
      | some y => y
      | none =>
        let y0 := amin (ewSub rms rmslo)
        let y1 := amax (ewAdd rms rmshi)
        let y0 := min y0 (stderr.getLastD 0)
        if ratio then (0, amax (ewDiv rms stderr) + 1) else (y0, y1)
    let xran :=
      match xran0 with
      | some x => x
      | none => (cad, amax (binsz.map (· * cad)))
    some { yran := yran, xran := xran }

/-! ## `modelfit` (mcplots.py lines 421-477) -/

/-- Line 449: `binsize = int((np.size(data)-1)/nbins + 1)` — Python 2
integer division. -/
def modelfitBinsize (n nbins : ℕ) : ℕ := (n - 1) / nbins + 1

/-- The bin size `modelfit` uses for a concrete data array. -/
def modelfitBinsizeOf (data : List ℚ) (nbins : ℕ) : ℕ :=
  modelfitBinsize data.length nbins

/-! ## Frame behaviour: caller-supplied arrays after each call

numpy in-place writes are modelled by explicit state passing: a statement
that writes into an array yields a new value for that array's name, and
each `*Caller` definition below threads the caller-supplied arrays through
the statements of the corresponding source function, returning their final
values.  Every subscripted assignment in the file targets a locally
allocated array: `good[...] = True` in `trace` (line 52) targets the
array allocated at line 50; `yran[0] = ...` in `RMS` (line 376) targets
the list allocated at line 375 inside the `yran is None` branch; and the
`parname[i] = ...` writes (lines 74, 143, 271) target the default-name
arrays allocated two lines above each, inside the `parname is None`
branches.  Every other statement rebinds a local name to a freshly
computed array (`posterior = posterior[good]`, `vals = np.r_[...]`,
`pdf = [None]*npars`, ...), leaving the caller's objects untouched. -/

/-- Caller-visible arrays after `trace` returns: the in-place writes of
lines 50-52 land in the local `good` array (first component of the local
state); `posterior` and `Zchain` are only rebound (lines 54-59). -/
def traceCaller (P : List (List ℚ)) (Z : List ℕ) (burnin thinning : ℕ) :
    (List (List ℚ) × List ℕ) × (List Bool × List ℕ) :=
  let good := goodMask Z burnin
  let xsep := traceXsep P Z burnin thinning
  ((P, Z), (good, xsep))

/-- Caller-visible array after `pairwise` returns: `hist`, `xran`, `yran`,
`lmax` are fresh local lists; `posterior` is never written. -/
def pairwiseCaller (posterior : List (List ℚ)) (thinning nbins nlevels : ℕ)
    (absolute_dens : Bool)
    (hist2d : List ℚ → List ℚ → ℕ → List (List ℕ) × List ℚ × List ℚ) :
    List (List ℚ) :=
  let _panels := pairwiseRun posterior thinning nbins nlevels absolute_dens hist2d
  posterior

/-- Caller-visible arrays after `histogram` returns: `vals`, `bins` are
rebound to fresh `np.r_` results (lines 307-308); the caller's `pdf` and
`xpdf` (absent, or a list of per-parameter arrays) are only rebound by the
normalization of lines 253-258 (`pdf = [None]*npars`, `pdf = [pdf]`),
never written; `posterior` is never written. -/
def histogramCaller (posterior : List (List ℚ)) (thinning : ℕ)
    (percentile : Option ℚ) (pdf xpdf : Option (List (List ℚ)))
    (cred : ℕ → List ℚ → ℚ → List ℚ × List ℚ × ℚ) :
    List (List ℚ) × Option (List (List ℚ)) × Option (List (List ℚ)) :=
  let _m := histogramRun posterior thinning percentile cred
  (posterior, pdf, xpdf)

/-- Caller-visible arrays after `RMS` returns: when the caller supplies
`yran`, the `yran[0] = ...` write (line 376) is unreachable, as it sits
inside the `yran is None` branch which allocates a fresh list. -/
def RMScaller (binsz rms stderr rmslo rmshi : List ℚ) (cadence : Option ℚ)
    (ratio : Bool) (yran0 xran0 : Option (ℚ × ℚ)) (timepoints : List ℚ) :
    (List ℚ × List ℚ × List ℚ × List ℚ × List ℚ) ×
      (Option (ℚ × ℚ) × Option (ℚ × ℚ) × List ℚ) :=
  if rms.length ≤ 1 then
    ((binsz, rms, stderr, rmslo, rmshi), (yran0, xran0, timepoints))
  else
    let _r := RMSrun binsz rms stderr rmslo rmshi cadence ratio yran0 xran0
    ((binsz, rms, stderr, rmslo, rmshi), (yran0, xran0, timepoints))

/-- Caller-visible arrays after `modelfit` returns: the binned arrays are
fresh outputs of the external binning collaborator (`bin2` models the pair
`ba.binarray` / `ba.weightedbin`); the inputs are never written. -/
def modelfitCaller (data uncert indparams model : List ℚ) (nbins : ℕ)
    (bin2 : List ℚ → List ℚ → List ℚ → ℕ →
      (List ℚ × List ℚ × List ℚ) × List ℚ) :
    List ℚ × List ℚ × List ℚ × List ℚ :=
  let _binned := bin2 data uncert indparams (modelfitBinsizeOf data nbins)
  (data, uncert, indparams, model)

/-- Index form of the `good` mask: the positions the mask selects, in
increasing order. -/
def goodIdx (Z : List ℕ) (burnin : ℕ) : List ℕ :=
  (List.range Z.length).filter (fun i =>
    decide (∃ c ∈ List.range (nchains Z), i ∈ (idxWhere Z c).drop burnin))

/-- The claim's description of a chain separator: a thinned sample index
at which the chain id changes. -/
def xsepSpec (zt : List ℕ) (k : ℕ) : Prop :=
  k + 1 < zt.length ∧ zt.getD k 0 ≠ zt.getD (k + 1) 0

/-! ## Helper lemmas about the array primitives -/

lemma takeIdx_nil {α : Type} (idx : List ℕ) : takeIdx ([] : List α) idx = [] := by
  induction idx with
  | nil => rfl
  | cons i t ih => simp [takeIdx, List.filterMap_cons]

lemma takeIdx_append {α : Type} (l : List α) (idx₁ idx₂ : List ℕ) :
    takeIdx l (idx₁ ++ idx₂) = takeIdx l idx₁ ++ takeIdx l idx₂ :=
  List.filterMap_append _ _ _

lemma takeIdx_flatMap {α β : Type} (l : List α) (cs : List β) (f : β → List ℕ) :
    takeIdx l (cs.flatMap f) = cs.flatMap (fun c => takeIdx l (f c)) := by
  induction cs with
  | nil => rfl
  | cons c t ih => simp only [List.flatMap_cons, takeIdx_append, ih]

lemma takeIdx_map_succ {α : Type} (a : α) (l : List α) (idx : List ℕ) :
    takeIdx (a :: l) (idx.map Nat.succ) = takeIdx l idx := by
  induction idx with
  | nil => rfl
  | cons i t ih =>
    simp only [takeIdx, List.map_cons, List.filterMap_cons] at ih ⊢
    have : (a :: l)[i.succ]? = l[i]? := by simp
    rw [this]
    cases l[i]? with
    | none => exact ih
    | some v => rw [ih]

lemma takeIdx_cons_zero {α : Type} (a : α) (l : List α) (idx : List ℕ) :
    takeIdx (a :: l) (0 :: idx) = a :: takeIdx (a :: l) idx := by
  simp [takeIdx, List.filterMap_cons]

/-- Gathering a list at the indices of its elements that satisfy `p` is the
same as filtering it. -/
lemma takeIdx_filter_range {α : Type} (p : α → Bool) (d : α) :
    ∀ l : List α,
      takeIdx l ((List.range l.length).filter (fun i => p (l.getD i d))) =
        l.filter p := by
  intro l
  induction l with
  | nil => simp [takeIdx]
  | cons a t ih =>
    have hmap : (List.map Nat.succ (List.range t.length)).filter
        (fun i => p ((a :: t).getD i d)) =
        List.map Nat.succ ((List.range t.length).filter
          (fun i => p (t.getD i d))) := by
      rw [List.filter_map]
      rfl
    have h0 : (a :: t).getD 0 d = a := rfl
    show takeIdx (a :: t) ((List.range (t.length + 1)).filter
        (fun i => p ((a :: t).getD i d))) = (a :: t).filter p
    rw [List.range_succ_eq_map, List.filter_cons, hmap, h0, List.filter_cons]
    by_cases hpa : p a
    · rw [if_pos hpa, if_pos hpa, takeIdx_cons_zero, takeIdx_map_succ, ih]
    · rw [if_neg hpa, if_neg hpa, takeIdx_map_succ, ih]

lemma takeIdx_drop {α : Type} (l : List α) :
    ∀ (idx : List ℕ) (b : ℕ), (∀ i ∈ idx, i < l.length) →
      takeIdx l (idx.drop b) = (takeIdx l idx).drop b := by
  intro idx
  induction idx with
  | nil => intro b _; simp [takeIdx]
  | cons i t ih =>
    intro b hb
    cases b with
    | zero => simp
    | succ b' =>
      have hi : i < l.length := hb i (by simp)
      have ht : ∀ j ∈ t, j < l.length := fun j hj => hb j (by simp [hj])
      rw [List.drop_succ_cons, ih b' ht]
      simp only [takeIdx, List.filterMap_cons, List.getElem?_eq_getElem hi]
      rfl

lemma takeIdx_filter {α : Type} (l : List α) (p : α → Bool) (d : α) :
    ∀ idx : List ℕ, (∀ i ∈ idx, i < l.length) →
      (takeIdx l idx).filter p =
        takeIdx l (idx.filter (fun i => p (l.getD i d))) := by
  intro idx
  induction idx with
  | nil => intro _; rfl
  | cons i t ih =>
    intro hb
    have hi : i < l.length := hb i (by simp)
    have ht : ∀ j ∈ t, j < l.length := fun j hj => hb j (by simp [hj])
    have hgd : l.getD i d = l[i] := by
      rw [List.getD_eq_getElem?_getD, List.getElem?_eq_getElem hi]; rfl
    simp only [takeIdx] at ih ⊢
    rw [List.filter_cons, hgd]
    simp only [List.filterMap_cons, List.getElem?_eq_getElem hi]
    by_cases hp : p l[i]
    · rw [if_pos hp, List.filter_cons, if_pos hp]
      simp only [List.filterMap_cons, List.getElem?_eq_getElem hi]
      rw [ih ht]
    · rw [if_neg hp, List.filter_cons, if_neg hp]
      exact ih ht

lemma length_takeIdx_congr {α β : Type} (l₁ : List α) (l₂ : List β)
    (h : l₁.length = l₂.length) :
    ∀ idx : List ℕ, (takeIdx l₁ idx).length = (takeIdx l₂ idx).length := by
  intro idx
  induction idx with
  | nil => rfl
  | cons i t ih =>
    simp only [takeIdx, List.filterMap_cons]
    by_cases hi : i < l₁.length
    · rw [List.getElem?_eq_getElem hi, List.getElem?_eq_getElem (h ▸ hi)]
      simpa using ih
    · rw [List.getElem?_eq_none (Nat.le_of_not_lt hi),
        List.getElem?_eq_none (h ▸ Nat.le_of_not_lt hi)]
      exact ih

lemma takeIdx_zip {α β : Type} (l₁ : List α) (l₂ : List β)
    (h : l₁.length = l₂.length) :
    ∀ idx : List ℕ,
      takeIdx (l₁.zip l₂) idx = (takeIdx l₁ idx).zip (takeIdx l₂ idx) := by
  intro idx
  induction idx with
  | nil => rfl
  | cons i t ih =>
    simp only [takeIdx, List.filterMap_cons] at ih ⊢
    by_cases hi : i < l₁.length
    · have hi₂ : i < l₂.length := by omega
      have hzl : i < (l₁.zip l₂).length := by
        rw [List.length_zip]; omega
      rw [List.getElem?_eq_getElem hzl, List.getElem?_eq_getElem hi,
        List.getElem?_eq_getElem hi₂, ih]
      simp [List.getElem_zip]
    · have h1 : l₁.length ≤ i := Nat.le_of_not_lt hi
      have h2 : l₂.length ≤ i := by omega
      have hz : (l₁.zip l₂).length ≤ i := by rw [List.length_zip]; omega
      rw [List.getElem?_eq_none hz, List.getElem?_eq_none h1,
        List.getElem?_eq_none h2]
      exact ih

lemma applyMask_zip {α β : Type} :
    ∀ (m : List Bool) (l₁ : List α) (l₂ : List β),
      l₁.length = l₂.length →
      applyMask (l₁.zip l₂) m = (applyMask l₁ m).zip (applyMask l₂ m) := by
  intro m
  induction m with
  | nil => intro l₁ l₂ _; simp [applyMask]
  | cons b t ih =>
    intro l₁ l₂ h
    cases l₁ with
    | nil =>
      cases l₂ with
      | nil => simp [applyMask]
      | cons a₂ t₂ => simp at h
    | cons a₁ t₁ =>
      cases l₂ with
      | nil => simp at h
      | cons a₂ t₂ =>
        have ht : t₁.length = t₂.length := by simpa using h
        simp only [List.zip_cons_cons, applyMask, List.filterMap_cons]
        cases b with
        | false => simpa [applyMask] using ih t₁ t₂ ht
        | true =>
          simp only [if_pos]
          have := ih t₁ t₂ ht
          simp only [applyMask] at this
          simp [this]

lemma length_applyMask_congr {α β : Type} :
    ∀ (m : List Bool) (l₁ : List α) (l₂ : List β),
      l₁.length = l₂.length →
      (applyMask l₁ m).length = (applyMask l₂ m).length := by
  intro m
  induction m with
  | nil => intro l₁ l₂ _; simp [applyMask]
  | cons b t ih =>
    intro l₁ l₂ h
    cases l₁ with
    | nil => cases l₂ with
      | nil => rfl
      | cons a₂ t₂ => simp at h
    | cons a₁ t₁ =>
      cases l₂ with
      | nil => simp at h
      | cons a₂ t₂ =>
        have ht : t₁.length = t₂.length := by simpa using h
        simp only [applyMask, List.zip_cons_cons, List.filterMap_cons]
        cases b with
        | false => simpa [applyMask] using ih t₁ t₂ ht
        | true =>
          have := ih t₁ t₂ ht
          simp only [applyMask] at this
          simp [this]

lemma mem_of_mem_applyMask {α : Type} {x : α} {l : List α} {m : List Bool}
    (h : x ∈ applyMask l m) : x ∈ l := by
  simp only [applyMask, List.mem_filterMap] at h
  obtain ⟨⟨a, b⟩, hab, heq⟩ := h
  by_cases hb : b = true
  · subst hb
    simp only [if_pos] at heq
    cases heq
    exact (List.of_mem_zip hab).1
  · simp [hb] at heq

/-! ## Lemmas about `amaxN`, `idxWhere`, `goodMask` -/

lemma le_amaxN {x : ℕ} : ∀ {l : List ℕ}, x ∈ l → x ≤ amaxN l := by
  intro l
  induction l with
  | nil => intro h; cases h
  | cons a t ih =>
    intro h
    rcases List.mem_cons.1 h with rfl | h
    · exact Nat.le_max_left _ _
    · exact Nat.le_trans (ih h) (Nat.le_max_right _ _)

lemma amaxN_le {B : ℕ} : ∀ {l : List ℕ}, (∀ x ∈ l, x ≤ B) → amaxN l ≤ B := by
  intro l
  induction l with
  | nil => intro _; exact Nat.zero_le _
  | cons a t ih =>
    intro h
    exact Nat.max_le.2 ⟨h a (by simp), ih (fun x hx => h x (by simp [hx]))⟩

lemma mem_idxWhere {Z : List ℕ} {c i : ℕ} :
    i ∈ idxWhere Z c ↔ i < Z.length ∧ Z.getD i 0 = c := by
  simp [idxWhere, List.mem_filter, List.mem_range]

lemma idxWhere_lt_length {Z : List ℕ} {c i : ℕ} (h : i ∈ idxWhere Z c) :
    i < Z.length := (mem_idxWhere.1 h).1

lemma idxWhere_pairwise (Z : List ℕ) (c : ℕ) :
    (idxWhere Z c).Pairwise (· < ·) :=
  List.Pairwise.sublist (List.filter_sublist _) (List.pairwise_lt_range Z.length)

lemma getD_lt_nchains {Z : List ℕ} {i : ℕ} (h : i < Z.length) :
    Z.getD i 0 < nchains Z := by
  have hmem : Z.getD i 0 ∈ Z := by
    rw [List.getD_eq_getElem?_getD, List.getElem?_eq_getElem h]
    exact List.getElem_mem h
  exact Nat.lt_succ_of_le (le_amaxN hmem)

/-- A strictly sorted list of indices below `n` is recovered by filtering
`range n` for membership in it. -/
lemma filter_range_mem {L : List ℕ} {n : ℕ} (hL : L.Pairwise (· < ·))
    (hn : ∀ x ∈ L, x < n) :
    (List.range n).filter (fun i => decide (i ∈ L)) = L := by
  haveI : IsAntisymm ℕ (· < ·) :=
    ⟨fun a b h h' => absurd h' (Nat.not_lt.2 (Nat.le_of_lt h))⟩
  have hnodupL : L.Nodup := hL.imp Nat.ne_of_lt
  have hnodupF : ((List.range n).filter (fun i => decide (i ∈ L))).Nodup :=
    (List.nodup_range n).filter _
  have hperm : ((List.range n).filter (fun i => decide (i ∈ L))).Perm L := by
    rw [List.perm_ext_iff_of_nodup hnodupF hnodupL]
    intro a
    simp only [List.mem_filter, List.mem_range, decide_eq_true_eq]
    exact ⟨fun h => h.2, fun h => ⟨hn a h, h⟩⟩
  exact List.eq_of_perm_of_sorted hperm
    (List.Pairwise.sublist (List.filter_sublist _) (List.pairwise_lt_range n)) hL

/-- The mask built by lines 50-52 selects, within each chain, exactly the
indices past the first `burnin` occurrences: filtering the selected
positions by chain `c` gives `where(Z == c)[0][burnin:]`. -/
lemma goodIdx_filter_key (Z : List ℕ) (burnin c : ℕ) :
    (goodIdx Z burnin).filter (fun i => Z.getD i 0 == c) =
      (idxWhere Z c).drop burnin := by
  unfold goodIdx
  rw [List.filter_filter]
  have hcong : ∀ i ∈ List.range Z.length,
      ((Z.getD i 0 == c) &&
        decide (∃ c' ∈ List.range (nchains Z), i ∈ (idxWhere Z c').drop burnin)) =
      decide (i ∈ (idxWhere Z c).drop burnin) := by
    intro i hi
    rw [List.mem_range] at hi
    simp only [Bool.and_eq_true, beq_iff_eq, decide_eq_true_eq, List.mem_range]
    rw [Bool.eq_iff_iff]
    simp only [Bool.and_eq_true, beq_iff_eq, decide_eq_true_eq, List.mem_range]
    constructor
    · rintro ⟨hc, c', _, hmem⟩
      have hc' : Z.getD i 0 = c' :=
        (mem_idxWhere.1 (List.mem_of_mem_drop hmem)).2
      rwa [← hc, hc']
    · intro hmem
      have hZc : Z.getD i 0 = c :=
        (mem_idxWhere.1 (List.mem_of_mem_drop hmem)).2
      exact ⟨hZc, c, hZc ▸ getD_lt_nchains hi, hmem⟩
  rw [List.filter_congr hcong]
  exact filter_range_mem
    (List.Pairwise.sublist (List.drop_sublist _ _) (idxWhere_pairwise Z c))
    (fun x hx => List.mem_range.1
      (List.mem_of_mem_filter (List.mem_of_mem_drop hx)))

/-- Boolean-mask selection equals gathering at the mask's true
positions. -/
lemma applyMask_eq_takeIdx {α : Type} :
    ∀ (l : List α) (m : List Bool), m.length = l.length →
      applyMask l m =
        takeIdx l ((List.range m.length).filter (fun i => m.getD i false)) := by
  intro l
  induction l with
  | nil =>
    intro m h
    rw [List.length_eq_zero.1 h]
    simp [applyMask, takeIdx]
  | cons a t ih =>
    intro m h
    cases m with
    | nil => simp at h
    | cons b s =>
      have hs : s.length = t.length := by simpa using h
      have hmap : (List.map Nat.succ (List.range s.length)).filter
          (fun i => (b :: s).getD i false) =
          List.map Nat.succ ((List.range s.length).filter
            (fun i => s.getD i false)) := by
        rw [List.filter_map]
        rfl
      have hcons : applyMask (a :: t) (b :: s) =
          (if b then [a] else []) ++ applyMask t s := by
        cases b <;> simp [applyMask, List.filterMap_cons]
      have h0 : (b :: s).getD 0 false = b := rfl
      show applyMask (a :: t) (b :: s) =
        takeIdx (a :: t) ((List.range (s.length + 1)).filter
          (fun i => (b :: s).getD i false))
      rw [hcons, List.range_succ_eq_map, List.filter_cons, h0, hmap]
      cases b with
      | true =>
        rw [if_pos rfl, if_pos rfl, takeIdx_cons_zero, takeIdx_map_succ,
          ih s hs]
        rfl
      | false =>
        rw [if_neg (by decide), if_neg (by decide), takeIdx_map_succ,
          ih s hs]
        rfl

/-- Boolean-mask selection with the `good` mask equals gathering at the
selected index list. -/
lemma applyMask_goodMask {α : Type} (l : List α) (Z : List ℕ) (burnin : ℕ)
    (h : Z.length = l.length) :
    applyMask l (goodMask Z burnin) = takeIdx l (goodIdx Z burnin) := by
  have hlen : (goodMask Z burnin).length = l.length := by
    simp [goodMask, h]
  rw [applyMask_eq_takeIdx l _ hlen]
  have hlen2 : (goodMask Z burnin).length = Z.length := by simp [goodMask]
  rw [hlen2]
  unfold goodIdx
  congr 1
  apply List.filter_congr
  intro i hi
  rw [List.mem_range] at hi
  simp only [goodMask, List.getD_eq_getElem?_getD, List.getElem?_map,
    List.getElem?_range hi]
  rfl

/-! ## Grouping and stability of the chain sort -/

/-- A list sorted by a natural-number key, with all keys in
`[s, s + m)`, is the concatenation of its key-classes in increasing key
order. -/
lemma sorted_eq_flatMap_filter {α : Type} (key : α → ℕ) :
    ∀ (l : List α) (s m : ℕ),
      l.Pairwise (fun a b => key a ≤ key b) →
      (∀ a ∈ l, s ≤ key a ∧ key a < s + m) →
      l = (List.range' s m).flatMap (fun c => l.filter (fun a => key a == c)) := by
  intro l
  induction l with
  | nil =>
    intro s m _ _
    rw [eq_comm, List.flatMap_eq_nil_iff]
    intro x _
    rfl
  | cons a t ih =>
    intro s m hp hb
    have hsk : s ≤ key a := (hb a (by simp)).1
    have hkm : key a < s + m := (hb a (by simp)).2
    have htk : ∀ b ∈ t, key a ≤ key b := (List.pairwise_cons.1 hp).1
    have htp : t.Pairwise (fun a b => key a ≤ key b) := (List.pairwise_cons.1 hp).2
    have hsplit : List.range' s m =
        List.range' s (key a - s) ++ List.range' (key a) (m - (key a - s)) := by
      have h1 : s + 1 * (key a - s) = key a := by omega
      have h3 := List.range'_append s (key a - s) (m - (key a - s)) 1
      rw [h1] at h3
      rw [h3]
      congr 1
      omega
    rw [hsplit, List.flatMap_append]
    have hlow : (List.range' s (key a - s)).flatMap
        (fun c => (a :: t).filter (fun x => key x == c)) = [] := by
      rw [List.flatMap_eq_nil_iff]
      intro c hc
      rw [List.mem_range'] at hc
      obtain ⟨i, hi, rfl⟩ := hc
      rw [List.filter_eq_nil_iff]
      intro x hx
      have hxk : key a ≤ key x := by
        rcases List.mem_cons.1 hx with rfl | hx
        · exact Nat.le_refl _
        · exact htk x hx
      simp only [beq_iff_eq]
      omega
    rw [hlow, List.nil_append]
    have hm1 : m - (key a - s) = (m - (key a - s) - 1) + 1 := by omega
    rw [hm1, List.range'_succ]
    simp only [List.flatMap_cons]
    have hfk : (a :: t).filter (fun x => key x == key a) =
        a :: t.filter (fun x => key x == key a) := by
      rw [List.filter_cons, if_pos (by simp)]
    rw [hfk]
    have hrest : (List.range' (key a + 1) (m - (key a - s) - 1)).flatMap
        (fun c => (a :: t).filter (fun x => key x == c)) =
        (List.range' (key a + 1) (m - (key a - s) - 1)).flatMap
        (fun c => t.filter (fun x => key x == c)) := by
      apply List.flatMap_congr
      intro c hc
      rw [List.mem_range'] at hc
      obtain ⟨i, hi, rfl⟩ := hc
      rw [List.filter_cons, if_neg (by simp; omega)]
    rw [hrest]
    have hIH := ih (key a) (m - (key a - s)) htp
      (fun b hbmem => ⟨htk b hbmem, by
        have := (hb b (by simp [hbmem])).2
        omega⟩)
    rw [hm1, List.range'_succ] at hIH
    simp only [List.flatMap_cons] at hIH
    rw [List.cons_append, ← hIH]

/-- `mergeSort`'s comparator on index keys is transitive. -/
lemma keyLe_trans (Z : List ℕ) : ∀ (a b c : ℕ),
    decide (Z.getD a 0 ≤ Z.getD b 0) = true →
    decide (Z.getD b 0 ≤ Z.getD c 0) = true →
    decide (Z.getD a 0 ≤ Z.getD c 0) = true := by
  intro a b c hab hbc
  simp only [decide_eq_true_eq] at *
  omega

/-- `mergeSort`'s comparator on index keys is total. -/
lemma keyLe_total (Z : List ℕ) : ∀ (a b : ℕ),
    (decide (Z.getD a 0 ≤ Z.getD b 0) || decide (Z.getD b 0 ≤ Z.getD a 0)) = true := by
  intro a b
  simp only [Bool.or_eq_true, decide_eq_true_eq]
  omega

/-- Stability of `np.lexsort`: within one key class, the sorted index list
keeps the original (increasing) order, so filtering it by a key value
gives back `np.where(Z == c)[0]`. -/
lemma lexsortIdx_filter_key (Z : List ℕ) (c : ℕ) :
    (lexsortIdx Z).filter (fun i => Z.getD i 0 == c) = idxWhere Z c := by
  have hsub : List.Sublist (idxWhere Z c)
      ((lexsortIdx Z).filter (fun i => Z.getD i 0 == c)) := by
    have hall : ∀ i ∈ idxWhere Z c, (fun i => Z.getD i 0 == c) i = true := by
      intro i hi
      show (Z.getD i 0 == c) = true
      exact beq_iff_eq.mpr (mem_idxWhere.1 hi).2
    have h1 : List.Sublist (idxWhere Z c) (lexsortIdx Z) := by
      apply List.sublist_mergeSort (keyLe_trans Z) (keyLe_total Z)
      · apply List.pairwise_of_forall_mem_list
        intro a ha b hb
        rw [decide_eq_true_eq, (mem_idxWhere.1 ha).2, (mem_idxWhere.1 hb).2]
      · exact List.filter_sublist _
    have h2 := List.Sublist.filter (fun i => Z.getD i 0 == c) h1
    rwa [List.filter_eq_self.2 hall] at h2
  apply (hsub.eq_of_length _).symm
  have hperm : (lexsortIdx Z).Perm (List.range Z.length) :=
    List.mergeSort_perm _ _
  rw [← List.countP_eq_length_filter, hperm.countP_eq,
    List.countP_eq_length_filter]
  rfl

/-- The sorted index list is weakly increasing in key. -/
lemma lexsortIdx_pairwise (Z : List ℕ) :
    (lexsortIdx Z).Pairwise (fun i j => Z.getD i 0 ≤ Z.getD j 0) := by
  have := List.sorted_mergeSort (keyLe_trans Z) (keyLe_total Z)
    (List.range Z.length)
  exact this.imp (fun h => of_decide_eq_true h)

lemma mem_lexsortIdx {Z : List ℕ} {i : ℕ} (h : i ∈ lexsortIdx Z) :
    i < Z.length :=
  List.mem_range.1 ((List.mergeSort_perm _ _).mem_iff.1 h)

/-- Gathering a list of pairs at `where(keys == c)` is filtering it by
key. -/
lemma takeIdx_idxWhere {β : Type} (l : List (ℕ × β)) (d : ℕ × β) (c : ℕ) :
    takeIdx l (idxWhere (l.map Prod.fst) c) = l.filter (fun r => r.1 == c) := by
  unfold idxWhere
  rw [List.length_map]
  have hcong : ∀ i ∈ List.range l.length,
      ((l.map Prod.fst).getD i 0 == c) = ((l.getD i d).1 == c) := by
    intro i hi
    rw [List.mem_range] at hi
    rw [List.getD_eq_getElem?_getD, List.getElem?_map,
      List.getElem?_eq_getElem hi, List.getD_eq_getElem?_getD,
      List.getElem?_eq_getElem hi]
    rfl
  rw [List.filter_congr hcong]
  exact takeIdx_filter_range (fun r => r.1 == c) d l

/-- Extending the range of a `flatMap` by indices mapping to `[]` does not
change the result. -/
lemma flatMap_range_extend {α : Type} (f : ℕ → List α) (m n : ℕ)
    (hmn : m ≤ n) (h : ∀ c, m ≤ c → c < n → f c = []) :
    (List.range n).flatMap f = (List.range m).flatMap f := by
  have hn : n = m + (n - m) := by omega
  rw [hn, List.range_add, List.flatMap_append]
  have : (List.map (fun x => m + x) (List.range (n - m))).flatMap f = [] := by
    rw [List.flatMap_eq_nil_iff]
    intro x hx
    simp only [List.mem_map, List.mem_range] at hx
    obtain ⟨i, hi, rfl⟩ := hx
    exact h (m + i) (by omega) (by omega)
  rw [this, List.append_nil]

/-- Filtering the mask-selected rows by chain `c` gives the original
chain-`c` rows with the first `burnin` dropped: the burn-in mask removes,
within each chain, exactly the first `burnin` samples. -/
lemma applyMask_filter_key (P : List (List ℚ)) (Z : List ℕ) (burnin c : ℕ)
    (hlen : P.length = Z.length) :
    (applyMask (Z.zip P) (goodMask Z burnin)).filter (fun r => r.1 == c) =
      ((Z.zip P).filter (fun r => r.1 == c)).drop burnin := by
  have hzlen : (Z.zip P).length = Z.length := by
    rw [List.length_zip]; omega
  rw [applyMask_goodMask _ Z burnin hzlen.symm]
  have hidx : ∀ i ∈ goodIdx Z burnin, i < (Z.zip P).length := by
    intro i hi
    rw [hzlen]
    exact List.mem_range.1 (List.mem_of_mem_filter hi)
  rw [takeIdx_filter _ _ (0, []) _ hidx]
  have hcong : (goodIdx Z burnin).filter
      (fun i => ((Z.zip P).getD i (0, [])).1 == c) =
      (goodIdx Z burnin).filter (fun i => Z.getD i 0 == c) := by
    apply List.filter_congr
    intro i hi
    have hiZ : i < Z.length := List.mem_range.1 (List.mem_of_mem_filter hi)
    have hizip : i < (Z.zip P).length := by omega
    rw [List.getD_eq_getElem?_getD, List.getElem?_eq_getElem hizip,
      List.getD_eq_getElem?_getD, List.getElem?_eq_getElem hiZ]
    simp [List.getElem_zip]
  rw [hcong, goodIdx_filter_key]
  rw [takeIdx_drop _ _ _ (fun i hi => by
    rw [hzlen]; exact idxWhere_lt_length hi)]
  congr 1
  have hfst : (Z.zip P).map Prod.fst = Z := List.map_fst_zip Z P (by omega)
  have := takeIdx_idxWhere (Z.zip P) (0, []) c
  rw [hfst] at this
  exact this

/-- The stable sort step: gathering a pair list at the stable argsort of
its keys concatenates its key classes in increasing key order, each in
original order. -/
lemma takeIdx_lexsort {β : Type} (l : List (ℕ × β)) (d : ℕ × β) :
    takeIdx l (lexsortIdx (l.map Prod.fst)) =
      (List.range (nchains (l.map Prod.fst))).flatMap
        (fun c => l.filter (fun r => r.1 == c)) := by
  set Z := l.map Prod.fst with hZ
  have hgroup : lexsortIdx Z =
      (List.range (nchains Z)).flatMap
        (fun c => (lexsortIdx Z).filter (fun i => Z.getD i 0 == c)) := by
    have h := sorted_eq_flatMap_filter (fun i => Z.getD i 0) (lexsortIdx Z)
      0 (nchains Z) (lexsortIdx_pairwise Z)
      (fun i hi => ⟨Nat.zero_le _, by
        have hlt := getD_lt_nchains (mem_lexsortIdx hi)
        simpa using hlt⟩)
    rw [← List.range_eq_range'] at h
    exact h
  conv_lhs => rw [hgroup]
  rw [takeIdx_flatMap]
  apply List.flatMap_congr
  intro c _
  rw [lexsortIdx_filter_key]
  have h2 := takeIdx_idxWhere l d c
  rw [← hZ] at h2
  exact h2

/-- `tracePrep`, zipped: mask then stable sort equals per-chain burn-in
drop concatenated in increasing chain order. -/
lemma tracePrep_zip (P : List (List ℚ)) (Z : List ℕ) (burnin : ℕ)
    (hlen : P.length = Z.length) :
    (tracePrep P Z burnin).2.zip (tracePrep P Z burnin).1 =
      (List.range (nchains Z)).flatMap
        (fun c => ((Z.zip P).filter (fun r => r.1 == c)).drop burnin) := by
  simp only [tracePrep]
  set good := goodMask Z burnin with hgood
  set Z1 := applyMask Z good with hZ1
  set P1 := applyMask P good with hP1
  have hlen1 : Z1.length = P1.length :=
    length_applyMask_congr good Z P hlen.symm
  have hrows1 : applyMask (Z.zip P) good = Z1.zip P1 :=
    applyMask_zip good Z P hlen.symm
  have hfst1 : (applyMask (Z.zip P) good).map Prod.fst = Z1 := by
    rw [hrows1]
    exact List.map_fst_zip Z1 P1 (Nat.le_of_eq hlen1)
  rw [← takeIdx_zip Z1 P1 hlen1]
  rw [← hrows1]
  have hsort := takeIdx_lexsort (applyMask (Z.zip P) good) (0, [])
  rw [hfst1] at hsort
  rw [hsort]
  have hchain : ∀ c, (applyMask (Z.zip P) good).filter (fun r => r.1 == c) =
      ((Z.zip P).filter (fun r => r.1 == c)).drop burnin := by
    intro c
    rw [hgood]
    exact applyMask_filter_key P Z burnin c hlen
  rw [List.flatMap_congr (fun c _ => hchain c)]
  refine (flatMap_range_extend _ (nchains Z1) (nchains Z) ?_ ?_).symm
  · -- nchains Z1 ≤ nchains Z
    have : amaxN Z1 ≤ amaxN Z :=
      amaxN_le (fun x hx => le_amaxN (mem_of_mem_applyMask hx))
    simp only [nchains]
    omega
  · -- chains at or above nchains Z1 have no surviving samples
    intro c hc1 _
    rw [← hchain c, List.filter_eq_nil_iff]
    intro r hr
    have hrZ1 : r.1 ∈ Z1 := by
      rw [hrows1] at hr
      have := (List.of_mem_zip (a := r.1) (b := r.2) (by simpa using hr)).1
      exact this
    have : r.1 ≤ amaxN Z1 := le_amaxN hrZ1
    simp only [beq_iff_eq]
    intro hrc
    simp only [nchains] at hc1
    omega

/-! ## Claim C4 -/

/-- C4: with a chain-index vector supplied, `trace` prepares the plotted
sample sequence by discarding the first `burnin` samples of every chain
and then stably re-sorting the survivors by chain id (original order kept
within each chain), and it places its vertical separator lines exactly at
the thinned sample indices where the chain id changes. -/
theorem trace_burnin_stable_sort_separators
    (P : List (List ℚ)) (Z : List ℕ) (burnin thinning : ℕ)
    (hlen : P.length = Z.length) :
    tracePrep P Z burnin = tracePrepSpec P Z burnin ∧
    (∀ k, k ∈ traceXsep P Z burnin thinning ↔
      xsepSpec (thin (tracePrep P Z burnin).2 thinning) k) := by
  constructor
  · have hzip := tracePrep_zip P Z burnin hlen
    have hlen2 : (tracePrep P Z burnin).2.length =
        (tracePrep P Z burnin).1.length := by
      simp only [tracePrep]
      exact length_takeIdx_congr _ _ (length_applyMask_congr _ Z P hlen.symm) _
    have h2 : (tracePrep P Z burnin).2 =
        ((tracePrep P Z burnin).2.zip (tracePrep P Z burnin).1).map Prod.fst :=
      (List.map_fst_zip _ _ (Nat.le_of_eq hlen2)).symm
    have h1 : (tracePrep P Z burnin).1 =
        ((tracePrep P Z burnin).2.zip (tracePrep P Z burnin).1).map Prod.snd :=
      (List.map_snd_zip _ _ (Nat.le_of_eq hlen2.symm)).symm
    have hspec1 : (tracePrepSpec P Z burnin).1 =
        ((List.range (nchains Z)).flatMap
          (fun c => ((Z.zip P).filter (fun r => r.1 == c)).drop burnin)).map
            Prod.snd := rfl
    have hspec2 : (tracePrepSpec P Z burnin).2 =
        ((List.range (nchains Z)).flatMap
          (fun c => ((Z.zip P).filter (fun r => r.1 == c)).drop burnin)).map
            Prod.fst := rfl
    apply Prod.ext
    · rw [hspec1, h1, hzip]
    · rw [hspec2, h2, hzip]
  · intro k
    simp only [traceXsep, List.mem_filter, List.mem_range, decide_eq_true_eq,
      xsepSpec]
    constructor
    · rintro ⟨hk, hne⟩
      refine ⟨by omega, ?_⟩
      intro heq
      rw [heq] at hne
      simp at hne
    · rintro ⟨hk, hne⟩
      refine ⟨by omega, ?_⟩
      intro h0
      apply hne
      exact_mod_cast (by omega :
        ((thin (tracePrep P Z burnin).2 thinning).getD k 0 : ℤ) =
        (thin (tracePrep P Z burnin).2 thinning).getD (k + 1) 0)

/-- Witness for C4 at a concrete input: two chains, two samples each,
burn-in 1, thinning 1. -/
theorem trace_burnin_stable_sort_separators_witness :
    ([[(1:ℚ)], [2], [3], [4]] : List (List ℚ)).length =
      ([0, 1, 0, 1] : List ℕ).length ∧
    (tracePrep [[(1:ℚ)], [2], [3], [4]] [0, 1, 0, 1] 1 =
        tracePrepSpec [[(1:ℚ)], [2], [3], [4]] [0, 1, 0, 1] 1 ∧
      (∀ k, k ∈ traceXsep [[(1:ℚ)], [2], [3], [4]] [0, 1, 0, 1] 1 1 ↔
        xsepSpec (thin (tracePrep [[(1:ℚ)], [2], [3], [4]] [0, 1, 0, 1] 1).2 1)
          k)) :=
  ⟨rfl, trace_burnin_stable_sort_separators _ _ _ _ rfl⟩

/-! ## Claim C6 -/

/-- C6: `modelfit` computes `binsize = (n-1) // nbins + 1` with integer
arithmetic, and for `n ≥ 1`, `nbins ≥ 1` this equals `⌈n / nbins⌉`. -/
theorem modelfit_binsize_ceil (n nbins : ℕ) (hn : 1 ≤ n) (hb : 1 ≤ nbins) :
    modelfitBinsize n nbins = (n - 1) / nbins + 1 ∧
    modelfitBinsize n nbins = (n + nbins - 1) / nbins ∧
    (modelfitBinsize n nbins : ℤ) = ⌈(n : ℚ) / (nbins : ℚ)⌉ := by
  refine ⟨rfl, ?_, ?_⟩
  · have h1 : n + nbins - 1 = (n - 1) + nbins := by omega
    rw [modelfitBinsize, h1, Nat.add_div_right _ (by omega)]
  · set q := (n - 1) / nbins with hq
    have hqr : nbins * q + (n - 1) % nbins = n - 1 := Nat.div_add_mod _ _
    have hr : (n - 1) % nbins < nbins := Nat.mod_lt _ (by omega)
    have hlow : q * nbins ≤ n - 1 := by
      rw [hq]
      exact Nat.div_mul_le_self _ _
    have hhigh : n ≤ nbins * q + nbins := by omega
    have hbQ : (0 : ℚ) < (nbins : ℚ) := by
      exact_mod_cast Nat.lt_of_lt_of_le Nat.zero_lt_one hb
    have hmb : modelfitBinsize n nbins = q + 1 := rfl
    rw [eq_comm, Int.ceil_eq_iff, hmb]
    constructor
    · have hc1 : (((q + 1 : ℕ) : ℤ) : ℚ) - 1 = (q : ℚ) := by
        push_cast
        ring
      rw [hc1, lt_div_iff₀ hbQ]
      have hlt : q * nbins < n := by omega
      exact_mod_cast hlt
    · rw [div_le_iff₀ hbQ]
      have hle : n ≤ (q + 1) * nbins := by
        rw [Nat.add_mul, one_mul, Nat.mul_comm]
        omega
      exact_mod_cast hle

/-- Witness for C6 at `n = 7`, `nbins = 3` (binsize `3 = ⌈7/3⌉`). -/
theorem modelfit_binsize_ceil_witness :
    ((1 ≤ 7 ∧ 1 ≤ 3) ∧
      (modelfitBinsize 7 3 = (7 - 1) / 3 + 1 ∧
        modelfitBinsize 7 3 = (7 + 3 - 1) / 3 ∧
        (modelfitBinsize 7 3 : ℤ) = ⌈((7 : ℕ) : ℚ) / ((3 : ℕ) : ℚ)⌉)) :=
  ⟨⟨by decide, by decide⟩, modelfit_binsize_ceil 7 3 (by decide) (by decide)⟩

/-! ## Claim C7 -/

/-- C7: with `ratio=True`, `yran=None` and at least two RMS values, the
y-range `RMS` applies is `[0, max(rms/stderr) + 1]`; in particular its
lower bound is exactly `0`. -/
theorem RMS_ratio_yran (binsz rms stderr rmslo rmshi : List ℚ)
    (cadence : Option ℚ) (xran0 : Option (ℚ × ℚ)) (h2 : 2 ≤ rms.length) :
    (RMSrun binsz rms stderr rmslo rmshi cadence true none xran0).map
        RMSResult.yran =
      some (0, amax (ewDiv rms stderr) + 1) := by
  simp only [RMSrun]
  rw [if_neg (by omega)]
  rfl

/-- Witness for C7: two RMS values `[2, 4]` against `stderr = [1, 2]`. -/
theorem RMS_ratio_yran_witness :
    2 ≤ ([(2 : ℚ), 4] : List ℚ).length ∧
    (RMSrun [1, 2] [(2 : ℚ), 4] [1, 2] [0, 0] [0, 0] none true none none).map
        RMSResult.yran =
      some (0, amax (ewDiv [(2 : ℚ), 4] [1, 2]) + 1) :=
  ⟨by decide, RMS_ratio_yran [1, 2] [2, 4] [1, 2] [0, 0] [0, 0] none none
    (by decide)⟩

/-! ## Claim C8 -/

/-- C8: with fewer than two RMS values, `RMS` returns before creating,
clearing or saving any figure (the guard of lines 362-363 precedes
`plt.figure`). -/
theorem RMS_short_input_noop (binsz rms stderr rmslo rmshi : List ℚ)
    (cadence : Option ℚ) (ratio : Bool) (yran0 xran0 : Option (ℚ × ℚ))
    (h : rms.length < 2) :
    RMSrun binsz rms stderr rmslo rmshi cadence ratio yran0 xran0 = none := by
  simp only [RMSrun]
  rw [if_pos (by omega)]

/-- Witness for C8: the spec's example `RMS(binsz=[1], rms=[5], ...)`
produces no figure. -/
theorem RMS_short_input_noop_witness :
    ([(5 : ℚ)] : List ℚ).length < 2 ∧
    RMSrun [1] [(5 : ℚ)] [1] [0] [0] none false none none = none :=
  ⟨by decide, RMS_short_input_noop [1] [5] [1] [0] [0] none false none none
    (by decide)⟩

/-! ## Claim C9 -/

/-- C9: none of the five renderers mutates a caller-supplied array: the
caller-visible arrays after each call are element-wise the arrays passed
in (the only in-place writes in the file land in locally allocated
arrays). -/
theorem renderers_preserve_inputs :
    (∀ (P : List (List ℚ)) (Z : List ℕ) (burnin thinning : ℕ),
      (traceCaller P Z burnin thinning).1 = (P, Z)) ∧
    (∀ (posterior : List (List ℚ)) (thinning nbins nlevels : ℕ)
      (ad : Bool)
      (h2d : List ℚ → List ℚ → ℕ → List (List ℕ) × List ℚ × List ℚ),
      pairwiseCaller posterior thinning nbins nlevels ad h2d = posterior) ∧
    (∀ (posterior : List (List ℚ)) (thinning : ℕ) (percentile : Option ℚ)
      (pdf xpdf : Option (List (List ℚ)))
      (cred : ℕ → List ℚ → ℚ → List ℚ × List ℚ × ℚ),
      histogramCaller posterior thinning percentile pdf xpdf cred =
        (posterior, pdf, xpdf)) ∧
    (∀ (binsz rms stderr rmslo rmshi : List ℚ) (cadence : Option ℚ)
      (ratio : Bool) (yran0 xran0 : Option (ℚ × ℚ)) (timepoints : List ℚ),
      RMScaller binsz rms stderr rmslo rmshi cadence ratio yran0 xran0
          timepoints =
        ((binsz, rms, stderr, rmslo, rmshi), (yran0, xran0, timepoints))) ∧
    (∀ (data uncert indparams model : List ℚ) (nbins : ℕ)
      (bin2 : List ℚ → List ℚ → List ℚ → ℕ →
        (List ℚ × List ℚ × List ℚ) × List ℚ),
      modelfitCaller data uncert indparams model nbins bin2 =
        (data, uncert, indparams, model)) := by
  refine ⟨fun _ _ _ _ => rfl, fun _ _ _ _ _ _ => rfl,
    fun _ _ _ _ _ _ => rfl, ?_, fun _ _ _ _ _ _ => rfl⟩
  intro binsz rms stderr rmslo rmshi cadence ratio yran0 xran0 timepoints
  simp only [RMScaller]
  split <;> rfl

/-! ## Claim C5 -/

lemma range_filter_lt (j : ℕ) :
    ∀ n : ℕ, (List.range n).filter (fun i => decide (i < j)) =
      List.range (min j n) := by
  intro n
  induction n with
  | zero => simp
  | succ m ih =>
    rw [List.range_succ, List.filter_append, ih]
    by_cases hm : m < j
    · rw [List.filter_cons, if_pos (by simpa using hm)]
      have h1 : min j (m + 1) = m + 1 := by omega
      have h2 : min j m = m := by omega
      rw [h1, h2, List.filter_nil, List.range_succ]
    · rw [List.filter_cons, if_neg (by simpa using hm)]
      have h1 : min j (m + 1) = min j m := by omega
      rw [h1, List.filter_nil, List.append_nil]

lemma sum_range'_one (m : ℕ) :
    2 * (List.range' 1 m).sum = m * (m + 1) := by
  induction m with
  | zero => rfl
  | succ k ih =>
    rw [List.range'_1_concat, List.sum_append]
    have expand : (k + 1) * (k + 1 + 1) = k * (k + 1) + 2 * (k + 1) := by
      ring
    rw [expand, ← ih]
    simp only [List.sum_cons, List.sum_nil]
    ring

/-- The double loop of `pairwise` draws `npars * (npars - 1) / 2`
panels. -/
lemma length_pairIdx (npars : ℕ) :
    (pairIdx npars).length = npars * (npars - 1) / 2 := by
  have h2 : 2 * (pairIdx npars).length = npars * (npars - 1) := by
    unfold pairIdx
    rw [List.length_flatMap]
    have hmap : List.map (List.length ∘ (fun j =>
        ((List.range (npars - 1)).filter (fun i => decide (i < j))).map
          (fun i => (i, j)))) (List.range' 1 (npars - 1)) =
        List.map id (List.range' 1 (npars - 1)) := by
      apply List.map_congr_left
      intro j hj
      rw [List.mem_range'] at hj
      obtain ⟨i, hi, rfl⟩ := hj
      simp only [Function.comp, List.length_map, range_filter_lt,
        List.length_range, id]
      omega
    rw [hmap, List.map_id, sum_range'_one (npars - 1)]
    cases npars with
    | zero => rfl
    | succ m => simp [Nat.succ_sub_one, Nat.mul_comm]
  omega

/-- C5: `pairwise` draws exactly `n(n-1)/2` contour panels for `n ≥ 2`
parameters, and draws nothing (returns before creating a figure) for
`n = 1`. -/
theorem pairwise_panel_count (posterior : List (List ℚ))
    (thinning nbins nlevels : ℕ) (absolute_dens : Bool)
    (hist2d : List ℚ → List ℚ → ℕ → List (List ℕ) × List ℚ × List ℚ) :
    ((posterior.headD []).length = 1 →
      pairwiseRun posterior thinning nbins nlevels absolute_dens hist2d =
        none) ∧
    (2 ≤ (posterior.headD []).length →
      (pairwiseRun posterior thinning nbins nlevels absolute_dens
          hist2d).map List.length =
        some ((posterior.headD []).length *
          ((posterior.headD []).length - 1) / 2)) := by
  constructor
  · intro h1
    simp only [pairwiseRun]
    rw [if_pos h1]
  · intro h2
    simp only [pairwiseRun]
    rw [if_neg (by omega)]
    simp only [Option.map_some', List.length_map, List.length_range]
    rw [length_pairIdx]

/-- Witness for C5 at a concrete 3-parameter posterior: 3 panels. -/
theorem pairwise_panel_count_witness :
    2 ≤ (([[0, 0, 0]] : List (List ℚ)).headD []).length ∧
    (pairwiseRun [[0, 0, 0]] 1 35 20 false
        (fun _ _ _ => ([], [], []))).map List.length =
      some ((([[0, 0, 0]] : List (List ℚ)).headD []).length *
        ((([[0, 0, 0]] : List (List ℚ)).headD []).length - 1) / 2) :=
  ⟨by decide,
    (pairwise_panel_count [[0, 0, 0]] 1 35 20 false
      (fun _ _ _ => ([], [], []))).2 (by decide)⟩

/-! ## Claim C2 -/

/-- C2 (amended): `histogram` draws exactly `npars` panels, each a 25-bin
histogram, on a grid that always has room for them; the column count is
`(npars+2)/3 + (npars+2)%3` — that is `1, 2, 3, 2` for
`npars = 1, 2, 3, 4` — when `npars ≤ 4`, `3` for `5 ≤ npars ≤ 9`, and `4`
once `npars` exceeds `9`. -/
theorem histogram_layout (posterior : List (List ℚ)) (thinning : ℕ)
    (percentile : Option ℚ)
    (cred : ℕ → List ℚ → ℚ → List ℚ × List ℚ × ℚ) (npars : ℕ)
    (hnp : npars = (posterior.headD []).length) (h1 : 1 ≤ npars) :
    (histogramRun posterior thinning percentile cred).panels.length = npars ∧
    (∀ pl ∈ (histogramRun posterior thinning percentile cred).panels,
      pl.nbins = 25) ∧
    (npars ≤ 4 →
      (histogramRun posterior thinning percentile cred).ncolumns =
        [1, 2, 3, 2].getD (npars - 1) 0) ∧
    (5 ≤ npars → npars ≤ 9 →
      (histogramRun posterior thinning percentile cred).ncolumns = 3) ∧
    (10 ≤ npars →
      (histogramRun posterior thinning percentile cred).ncolumns = 4) ∧
    npars ≤ (histogramRun posterior thinning percentile cred).nrows *
      (histogramRun posterior thinning percentile cred).ncolumns := by
  subst hnp
  refine ⟨by simp [histogramRun], ?_, ?_, ?_, ?_, ?_⟩
  · intro pl hpl
    simp only [histogramRun, List.mem_map, List.mem_range] at hpl
    obtain ⟨i, _, rfl⟩ := hpl
    cases percentile <;> rfl
  · intro h4
    show histNcols _ = _
    unfold histNcols
    rw [if_neg (by omega), if_neg (by omega)]
    interval_cases (posterior.headD []).length <;> decide
  · intro h5 h9
    show histNcols _ = _
    unfold histNcols
    rw [if_neg (by omega), if_pos (by omega)]
  · intro h10
    show histNcols _ = _
    unfold histNcols
    rw [if_pos (by omega)]
  · show _ ≤ histNrows _ * histNcols _
    unfold histNrows histNcols
    by_cases h10 : 10 ≤ (posterior.headD []).length
    · rw [if_neg (by omega), if_pos (by omega)]
      omega
    · by_cases h5 : 5 ≤ (posterior.headD []).length
      · rw [if_pos (by omega), if_neg (by omega), if_pos (by omega)]
        omega
      · rw [if_pos (by omega), if_neg (by omega), if_neg (by omega)]
        interval_cases (posterior.headD []).length <;> decide

/-- Counterexample to C2 as stated: at `npars = 4` the source's
`(npars+2)/3 + (npars+2)%3` (Python 2 integer arithmetic, line 284) gives
2 columns, not the 3 the claim asserts for all `npars ≤ 4`. -/
theorem histogram_ncols_counterexample :
    (histogramRun [[0, 0, 0, 0]] 1 none
        (fun _ _ _ => ([], [], 0))).ncolumns = 2 ∧
    (2 : ℕ) ≠ 3 :=
  ⟨rfl, by decide⟩

/-- Witness for C2 at a 2-parameter posterior. -/
theorem histogram_layout_witness :
    (2 = (([[0, 0]] : List (List ℚ)).headD []).length ∧ 1 ≤ 2) ∧
    ((histogramRun [[0, 0]] 1 none
        (fun _ _ _ => ([], [], 0))).panels.length = 2 ∧
      (∀ pl ∈ (histogramRun [[0, 0]] 1 none
          (fun _ _ _ => ([], [], 0))).panels, pl.nbins = 25) ∧
      (2 ≤ 4 →
        (histogramRun [[0, 0]] 1 none
            (fun _ _ _ => ([], [], 0))).ncolumns =
          [1, 2, 3, 2].getD (2 - 1) 0) ∧
      (5 ≤ 2 → 2 ≤ 9 →
        (histogramRun [[0, 0]] 1 none
            (fun _ _ _ => ([], [], 0))).ncolumns = 3) ∧
      (10 ≤ 2 →
        (histogramRun [[0, 0]] 1 none
            (fun _ _ _ => ([], [], 0))).ncolumns = 4) ∧
      2 ≤ (histogramRun [[0, 0]] 1 none
          (fun _ _ _ => ([], [], 0))).nrows *
        (histogramRun [[0, 0]] 1 none
          (fun _ _ _ => ([], [], 0))).ncolumns) :=
  ⟨⟨by decide, by decide⟩,
    histogram_layout [[0, 0]] 1 none (fun _ _ _ => ([], [], 0)) 2
      (by decide) (by decide)⟩

/-! ## Claims C1 and C10 -/

/-- Selecting with a mask `map pred ys` keeps exactly the positions where
`pred` holds of the parallel list. -/
lemma applyMask_map_pred :
    ∀ (xs ys : List ℚ) (pred : ℚ → Bool), xs.length = ys.length →
      applyMask xs (ys.map pred) =
        ((xs.zip ys).filter (fun q => pred q.2)).map Prod.fst := by
  intro xs
  induction xs with
  | nil =>
    intro ys pred h
    simp [applyMask]
  | cons x xs ih =>
    intro ys pred h
    cases ys with
    | nil => simp at h
    | cons y ys =>
      have ht : xs.length = ys.length := by simpa using h
      by_cases hp : pred y = true
      · simp only [List.map_cons, applyMask, List.zip_cons_cons,
          List.filterMap_cons, List.filter_cons, hp, if_pos, List.map_cons]
        have := ih ys pred ht
        simp only [applyMask] at this
        simp [this]
      · simp only [List.map_cons, applyMask, List.zip_cons_cons,
          List.filterMap_cons, List.filter_cons, hp]
        have := ih ys pred ht
        simp only [applyMask] at this
        simpa [hp] using this

/-- Panel `i` of `histogram` when a percentile is requested. -/
lemma histogramRun_panel_some (posterior : List (List ℚ)) (thinning : ℕ)
    (p : ℚ) (cred : ℕ → List ℚ → ℚ → List ℚ × List ℚ × ℚ) (i : ℕ)
    (hi : i < (posterior.headD []).length) :
    (histogramRun posterior thinning (some p) cred).panels.getD i default =
      { histData := col (thin posterior thinning) i
        nbins := 25
        credColumn := some (col posterior i)
        shadeX := (cred i (col posterior i) p).2.1
        shadeMask := (cred i (col posterior i) p).1.map
          (fun q => decide ((cred i (col posterior i) p).2.2 ≤ q)) } := by
  simp only [histogramRun, List.getD_eq_getElem?_getD, List.getElem?_map,
    List.getElem?_range hi]
  rfl

/-- C1: with a percentile requested, the shaded region of panel `i`
consists of exactly the grid points `Xpdf[k]` with `PDF[k] ≥ HPDmin`,
where `(PDF, Xpdf, HPDmin)` is whatever the credible-region collaborator
returned — never a proper subset or superset. -/
theorem histogram_hpd_shading (posterior : List (List ℚ)) (thinning : ℕ)
    (p : ℚ) (cred : ℕ → List ℚ → ℚ → List ℚ × List ℚ × ℚ) (i : ℕ)
    (hi : i < (posterior.headD []).length)
    (hlen : (cred i (col posterior i) p).2.1.length =
      (cred i (col posterior i) p).1.length) :
    shadedPoints
        ((histogramRun posterior thinning (some p) cred).panels.getD i
          default) =
      (((cred i (col posterior i) p).2.1.zip
          (cred i (col posterior i) p).1).filter
        (fun q => decide ((cred i (col posterior i) p).2.2 ≤ q.2))).map
        Prod.fst := by
  rw [histogramRun_panel_some posterior thinning p cred i hi]
  exact applyMask_map_pred _ _ _ hlen

/-- Witness for C1: one parameter, collaborator returning
`PDF = [1, 3, 2]`, `Xpdf = [10, 20, 30]`, `HPDmin = 2` — shading covers
`[20, 30]`. -/
theorem histogram_hpd_shading_witness :
    (0 < (([[5]] : List (List ℚ)).headD []).length ∧
      (((fun (_ : ℕ) (_ : List ℚ) (_ : ℚ) =>
          (([1, 3, 2] : List ℚ), ([10, 20, 30] : List ℚ), (2 : ℚ))) 0
            (col [[5]] 0) (17/25)).2.1.length =
        ((fun (_ : ℕ) (_ : List ℚ) (_ : ℚ) =>
          (([1, 3, 2] : List ℚ), ([10, 20, 30] : List ℚ), (2 : ℚ))) 0
            (col [[5]] 0) (17/25)).1.length)) ∧
    shadedPoints
        ((histogramRun [[5]] 1 (some (17/25))
          (fun _ _ _ =>
            (([1, 3, 2] : List ℚ), ([10, 20, 30] : List ℚ),
              (2 : ℚ)))).panels.getD 0 default) =
      ((((fun (_ : ℕ) (_ : List ℚ) (_ : ℚ) =>
            (([1, 3, 2] : List ℚ), ([10, 20, 30] : List ℚ), (2 : ℚ))) 0
              (col [[5]] 0) (17/25)).2.1.zip
          ((fun (_ : ℕ) (_ : List ℚ) (_ : ℚ) =>
            (([1, 3, 2] : List ℚ), ([10, 20, 30] : List ℚ), (2 : ℚ))) 0
              (col [[5]] 0) (17/25)).1).filter
        (fun q => decide (((fun (_ : ℕ) (_ : List ℚ) (_ : ℚ) =>
            (([1, 3, 2] : List ℚ), ([10, 20, 30] : List ℚ), (2 : ℚ))) 0
              (col [[5]] 0) (17/25)).2.2 ≤ q.2))).map Prod.fst :=
  ⟨⟨by decide, by decide⟩,
    histogram_hpd_shading [[5]] 1 (17/25)
      (fun _ _ _ => ([1, 3, 2], [10, 20, 30], 2)) 0 (by decide) (by decide)⟩

/-- C10: with a percentile requested and a thinning stride, panel `i`
passes the full unthinned column `posterior[:, i]` to the credible-region
collaborator while its histogram is computed from the thinned samples
`posterior[0::thinning, i]`. -/
theorem histogram_cred_gets_unthinned_column (posterior : List (List ℚ))
    (thinning : ℕ) (p : ℚ)
    (cred : ℕ → List ℚ → ℚ → List ℚ × List ℚ × ℚ) (i : ℕ)
    (ht : 1 < thinning) (hi : i < (posterior.headD []).length) :
    ((histogramRun posterior thinning (some p) cred).panels.getD i
        default).credColumn = some (col posterior i) ∧
    ((histogramRun posterior thinning (some p) cred).panels.getD i
        default).histData = col (thin posterior thinning) i := by
  rw [histogramRun_panel_some posterior thinning p cred i hi]
  exact ⟨rfl, rfl⟩

/-- Witness for C10: four samples of one parameter, thinning 2: the
collaborator sees all four samples, the histogram only two. -/
theorem histogram_cred_gets_unthinned_column_witness :
    (1 < 2 ∧ 0 < (([[1], [2], [3], [4]] : List (List ℚ)).headD []).length) ∧
    (((histogramRun [[1], [2], [3], [4]] 2 (some (1/2))
        (fun _ _ _ => ([], [], 0))).panels.getD 0 default).credColumn =
      some (col [[1], [2], [3], [4]] 0) ∧
    ((histogramRun [[1], [2], [3], [4]] 2 (some (1/2))
        (fun _ _ _ => ([], [], 0))).panels.getD 0 default).histData =
      col (thin [[1], [2], [3], [4]] 2) 0) :=
  ⟨⟨by decide, by decide⟩,
    histogram_cred_gets_unthinned_column [[1], [2], [3], [4]] 2 (1/2)
      (fun _ _ _ => ([], [], 0)) 0 (by decide) (by decide)⟩

/-! ## Claim C3 -/

lemma map_getD_range {α β : Type} (l : List α) (d : α) (g : α → β) :
    (List.range l.length).map (fun k => g (l.getD k d)) = l.map g := by
  apply List.ext_getElem
  · simp
  · intro n h1 h2
    have hn : n < l.length := by simpa using h2
    simp only [List.getElem_map, List.getElem_range]
    rw [List.getD_eq_getElem?_getD, List.getElem?_eq_getElem hn]
    rfl

lemma linspace_length (a b : ℚ) (num : ℕ) :
    (linspace a b num).length = num := by
  unfold linspace
  split_ifs with h0 h1
  · simp [h0]
  · simp [h1]
  · simp

/-- `np.linspace` hits its upper endpoint exactly (for `num ≥ 2`). -/
lemma linspace_getLastD (a b : ℚ) (num : ℕ) (h : 2 ≤ num) (d : ℚ) :
    (linspace a b num).getLastD d = b := by
  obtain ⟨m, rfl⟩ : ∃ m, num = m + 2 := ⟨num - 2, by omega⟩
  unfold linspace
  rw [if_neg (by omega), if_neg (by omega)]
  rw [List.range_succ, List.map_append]
  simp only [List.map_cons, List.map_nil]
  rw [List.getLastD_concat]
  have hden : ((m + 2 : ℕ) : ℚ) - 1 = ((m + 1 : ℕ) : ℚ) := by
    push_cast
    ring
  have hc : ((m + 1 : ℕ) : ℚ) ≠ 0 := by
    rw [Nat.cast_ne_zero]
    omega
  rw [hden]
  field_simp

/-- C3 (amended): every `pairwise` panel's level list is a zero level
followed by `nlevels` linearly spaced levels whose top value is the
panel's maximum 2-D-histogram bin count **plus one** (with
`absolute_dens`, the global maximum bin count over all panels plus
one). -/
theorem pairwise_levels (posterior : List (List ℚ))
    (thinning nbins nlevels : ℕ) (absolute_dens : Bool)
    (hist2d : List ℚ → List ℚ → ℕ → List (List ℕ) × List ℚ × List ℚ)
    (panels : List PairPanel) (k : ℕ)
    (hrun : pairwiseRun posterior thinning nbins nlevels absolute_dens
      hist2d = some panels)
    (hk : k < panels.length) (hnl : 2 ≤ nlevels) :
    (panels.getD k default).levels =
      0 :: linspace 1
        ((if absolute_dens then
            amaxN (panels.map (fun q => amax2 q.hist + 1))
          else amax2 (panels.getD k default).hist + 1 : ℕ) : ℚ) nlevels ∧
    (panels.getD k default).levels.length = nlevels + 1 ∧
    (panels.getD k default).levels.getLastD 0 =
      ((if absolute_dens then
          amaxN (panels.map (fun q => amax2 q.hist + 1))
        else amax2 (panels.getD k default).hist + 1 : ℕ) : ℚ) := by
  have hne : ¬((posterior.headD []).length = 1) := by
    intro h1
    simp only [pairwiseRun] at hrun
    rw [if_pos h1] at hrun
    cases hrun
  cases absolute_dens with
  | false =>
    simp only [pairwiseRun, Bool.false_eq_true, if_false] at hrun ⊢
    rw [if_neg hne] at hrun
    injection hrun with hrun2
    subst hrun2
    set npars := (posterior.headD []).length with hnpars
    set hists := (pairIdx npars).map (fun ij =>
      (hist2d (col (thin posterior thinning) ij.1)
              (col (thin posterior thinning) ij.2) nbins).1) with hhists
    have hlenh : hists.length = (pairIdx npars).length := by
      rw [hhists, List.length_map]
    have hk2 : k < (pairIdx npars).length := by
      simpa using hk
    have hpk : ((List.range (pairIdx npars).length).map (fun k =>
        ({ pidx := (pairIdx npars).getD k (0, 0)
           hist := hists.getD k []
           levels := 0 :: linspace 1
             (((hists.map (fun h => amax2 h + 1)).getD k 0 : ℕ) : ℚ)
             nlevels } : PairPanel))).getD k default =
        { pidx := (pairIdx npars).getD k (0, 0)
          hist := hists.getD k []
          levels := 0 :: linspace 1
            (((hists.map (fun h => amax2 h + 1)).getD k 0 : ℕ) : ℚ)
            nlevels } := by
      rw [List.getD_eq_getElem?_getD, List.getElem?_map,
        List.getElem?_range hk2]
      rfl
    rw [hpk]
    have htop : (hists.map (fun h => amax2 h + 1)).getD k 0 =
        amax2 (hists.getD k []) + 1 := by
      rw [List.getD_eq_getElem?_getD, List.getElem?_map,
        List.getElem?_eq_getElem (by omega : k < hists.length),
        List.getD_eq_getElem?_getD,
        List.getElem?_eq_getElem (by omega : k < hists.length)]
      rfl
    refine ⟨by rw [htop], ?_, ?_⟩
    · rw [List.length_cons, linspace_length]
    · rw [List.getLastD_cons, linspace_getLastD _ _ _ hnl, htop]
  | true =>
    simp only [pairwiseRun, if_true] at hrun ⊢
    rw [if_neg hne] at hrun
    injection hrun with hrun2
    subst hrun2
    set npars := (posterior.headD []).length with hnpars
    set hists := (pairIdx npars).map (fun ij =>
      (hist2d (col (thin posterior thinning) ij.1)
              (col (thin posterior thinning) ij.2) nbins).1) with hhists
    have hlenh : hists.length = (pairIdx npars).length := by
      rw [hhists, List.length_map]
    have hk2 : k < (pairIdx npars).length := by
      simpa using hk
    have hN : (pairIdx npars).length ≤ npars * (npars + 1) * 2 := by
      rw [length_pairIdx]
      calc npars * (npars - 1) / 2 ≤ npars * (npars - 1) :=
            Nat.div_le_self _ _
        _ ≤ npars * (npars + 1) := Nat.mul_le_mul_left _ (by omega)
        _ ≤ npars * (npars + 1) * 2 :=
            Nat.le_mul_of_pos_right _ (by omega)
    have hpk : ((List.range (pairIdx npars).length).map (fun k =>
        ({ pidx := (pairIdx npars).getD k (0, 0)
           hist := hists.getD k []
           levels := 0 :: linspace 1
             (((List.replicate (npars * (npars + 1) * 2)
                 (amaxN (hists.map (fun h => amax2 h + 1)))).getD k 0 : ℕ) : ℚ)
             nlevels } : PairPanel))).getD k default =
        { pidx := (pairIdx npars).getD k (0, 0)
          hist := hists.getD k []
          levels := 0 :: linspace 1
            (((List.replicate (npars * (npars + 1) * 2)
                (amaxN (hists.map (fun h => amax2 h + 1)))).getD k 0 : ℕ) : ℚ)
            nlevels } := by
      rw [List.getD_eq_getElem?_getD, List.getElem?_map,
        List.getElem?_range hk2]
      rfl
    rw [hpk]
    have htop : (List.replicate (npars * (npars + 1) * 2)
        (amaxN (hists.map (fun h => amax2 h + 1)))).getD k 0 =
        amaxN (hists.map (fun h => amax2 h + 1)) := by
      rw [List.getD_eq_getElem?_getD, List.getElem?_replicate,
        if_pos (by omega)]
      rfl
    have hmaps : ((List.range (pairIdx npars).length).map (fun k =>
        ({ pidx := (pairIdx npars).getD k (0, 0)
           hist := hists.getD k []
           levels := 0 :: linspace 1
             (((List.replicate (npars * (npars + 1) * 2)
                 (amaxN (hists.map (fun h => amax2 h + 1)))).getD k 0 : ℕ) : ℚ)
             nlevels } : PairPanel))).map (fun q => amax2 q.hist + 1) =
        hists.map (fun h => amax2 h + 1) := by
      rw [List.map_map]
      show (List.range (pairIdx npars).length).map
        (fun k => amax2 (hists.getD k []) + 1) = _
      rw [← hlenh, map_getD_range hists [] (fun h => amax2 h + 1)]
    rw [hmaps, htop]
    refine ⟨rfl, ?_, ?_⟩
    · rw [List.length_cons, linspace_length]
    · rw [List.getLastD_cons, linspace_getLastD _ _ _ hnl]

/-- Counterexample to C3 as stated: one panel whose histogram has maximum
bin count 3 — the top contour level is `np.amax(h) + 1 = 4` (line 162),
not 3. -/
theorem pairwise_levels_top_counterexample :
    ((((pairwiseRun [[0, 0]] 1 35 20 false
          (fun _ _ _ => ([[3]], [], []))).getD []).getD 0
        default).levels.getLastD 0 = 4 ∧
      ((amax2 ((((pairwiseRun [[0, 0]] 1 35 20 false
          (fun _ _ _ => ([[3]], [], []))).getD []).getD 0
        default).hist) : ℕ) : ℚ) = 3 ∧
      (4 : ℚ) ≠ 3) := by
  have hp : (((pairwiseRun [[0, 0]] 1 35 20 false
      (fun _ _ _ => ([[3]], [], []))).getD []).getD 0 default) =
      { pidx := (0, 1), hist := [[3]],
        levels := 0 :: linspace 1 ((4 : ℕ) : ℚ) 20 } := rfl
  rw [hp]
  refine ⟨?_, ?_, by norm_num⟩
  · show ((0 : ℚ) :: linspace 1 ((4 : ℕ) : ℚ) 20).getLastD 0 = 4
    rw [List.getLastD_cons, linspace_getLastD _ _ _ (by norm_num)]
    norm_num
  · show ((amax2 [[3]] : ℕ) : ℚ) = 3
    norm_num [amax2, amaxN]

/-- Witness for C3 (amended) at a concrete two-parameter run with
`nlevels = 2`. -/
theorem pairwise_levels_witness :
    (pairwiseRun [[0, 0]] 1 35 2 false (fun _ _ _ => ([[3]], [], [])) =
        some [pairPanelExample] ∧ 0 < 1 ∧ 2 ≤ 2) ∧
    (([pairPanelExample].getD 0 default).levels =
      0 :: linspace 1
        ((if false then
            amaxN ([pairPanelExample].map (fun q => amax2 q.hist + 1))
          else amax2 ([pairPanelExample].getD 0 default).hist + 1 : ℕ) : ℚ)
        2 ∧
    ([pairPanelExample].getD 0 default).levels.length = 2 + 1 ∧
    ([pairPanelExample].getD 0 default).levels.getLastD 0 =
      ((if false then
          amaxN ([pairPanelExample].map (fun q => amax2 q.hist + 1))
        else amax2 ([pairPanelExample].getD 0 default).hist + 1 : ℕ) : ℚ)) :=
  ⟨⟨rfl, by decide, by decide⟩,
    pairwise_levels [[0, 0]] 1 35 2 false (fun _ _ _ => ([[3]], [], []))
      [pairPanelExample] 0 rfl (by decide) (by decide)⟩

end MCplots
